import Mathlib

/-!
Shallow embedding of the uTools list-filter plugin (a snippet launcher).

The embedded code consists of three Vue single-file components:
* the search view (`ListSearch/index.vue`): the match/rank engine
  `matchedItems`, keyboard selection (`handleKeydown`, `copySelectedItem`)
  and the mount-time auto-commit timer;
* the manager view (`ListManager/index.vue`): `addItem`, `updateItem`,
  `filteredItems`, and the JSON codec `exportData` / `importData`;
* the router (`App.vue`): the `onPluginEnter` payload transformation.

JavaScript strings are modelled as `List Char` (`Str`); JavaScript's
`toLowerCase` is modelled per character by `Char.toLower` (ASCII case
mapping), and the whitespace class by `Char.isWhitespace`.  Reactive refs
become explicit state records; `setTimeout`/`clearTimeout` become a
`timerPending` flag together with an explicit timer-firing transition.
-/

namespace ListFilter

/-- JavaScript strings, modelled as lists of characters. -/
abbrev Str := List Char

/-- Model of `String.prototype.toLowerCase` (per-character case mapping). -/
def lower (s : Str) : Str := s.map Char.toLower

/-- Model of `hay.startsWith(needle)` for JavaScript strings. -/
def startsWith : Str → Str → Bool
  | _, [] => true
  | [], _ :: _ => false
  | c :: cs, d :: ds => c == d && startsWith cs ds

/-- Model of `hay.includes(needle)` for JavaScript strings: `needle` occurs
as a contiguous substring of `hay`. -/
def includes : Str → Str → Bool
  | [], needle => startsWith [] needle
  | c :: cs, needle => startsWith (c :: cs) needle || includes cs needle

theorem startsWith_iff (hay needle : Str) :
    startsWith hay needle = true ↔ needle <+: hay := by
  induction hay generalizing needle with
  | nil =>
    cases needle with
    | nil => simp [startsWith]
    | cons d ds => simp [startsWith]
  | cons c cs ih =>
    cases needle with
    | nil => simp [startsWith]
    | cons d ds =>
      simp only [startsWith, Bool.and_eq_true, beq_iff_eq, ih,
        List.cons_prefix_cons]
      exact ⟨fun h => ⟨h.1.symm, h.2⟩, fun h => ⟨h.1.symm, h.2⟩⟩

theorem startsWith_self (s : Str) : startsWith s s = true := by
  rw [startsWith_iff]

theorem includes_iff (hay needle : Str) :
    includes hay needle = true ↔ needle <:+: hay := by
  induction hay with
  | nil =>
    simp only [includes, startsWith_iff, List.prefix_nil, List.infix_nil]
  | cons c cs ih =>
    simp only [includes, Bool.or_eq_true, startsWith_iff, ih,
      List.infix_cons_iff]

/-- The list-item record shared by both views (`interface ListItem`). -/
structure ListItem where
  id : Str
  title : Str
  subtitle : Str
  trigger : Str
  data : Str
deriving DecidableEq, Repr

/-- The filter predicate inside `matchedItems`: the (already lowercased)
keyword occurs in the lowercased `trigger`, `title` or `subtitle`. -/
def itemMatches (keyword : Str) (item : ListItem) : Bool :=
  includes (lower item.trigger) keyword ||
  includes (lower item.title) keyword ||
  includes (lower item.subtitle) keyword

/-- The comparator passed to `.sort` inside `matchedItems`: exact trigger
matches sort first, then trigger prefix matches, everything else ties. -/
def cmpItems (keyword : Str) (a b : ListItem) : Int :=
  let aExactMatch := lower a.trigger == keyword
  let bExactMatch := lower b.trigger == keyword
  if aExactMatch && !bExactMatch then -1
  else if !aExactMatch && bExactMatch then 1
  else
    let aStarts := startsWith (lower a.trigger) keyword
    let bStarts := startsWith (lower b.trigger) keyword
    if aStarts && !bStarts then -1
    else if !aStarts && bStarts then 1
    else 0

/-- The `matchedItems` computed property of the search view.  An empty
keyword (falsy in JavaScript) yields the empty list; otherwise the
collection is filtered by `itemMatches` and stable-sorted with `cmpItems`
(ECMAScript's `Array.prototype.sort` is stable, so it is modelled by
`List.mergeSort` on the comparator's non-positive half). -/
def matchedItems (listItems : List ListItem) (searchKeyword : Str) : List ListItem :=
  if searchKeyword = [] then []
  else
    let keyword := lower searchKeyword
    (listItems.filter (itemMatches keyword)).mergeSort
      fun a b => decide (cmpItems keyword a b ≤ 0)

/-- Rank induced by the `cmpItems` comparator: 0 for an exact trigger
match, 1 for a trigger that merely starts with the keyword, 2 otherwise. -/
def triggerRank (keyword : Str) (item : ListItem) : Nat :=
  if lower item.trigger == keyword then 0
  else if startsWith (lower item.trigger) keyword then 1
  else 2

theorem triggerRank_le_two (keyword : Str) (item : ListItem) :
    triggerRank keyword item ≤ 2 := by
  unfold triggerRank
  split
  · omega
  · split <;> omega

theorem exact_startsWith {keyword : Str} {item : ListItem}
    (h : (lower item.trigger == keyword) = true) :
    startsWith (lower item.trigger) keyword = true := by
  rw [beq_iff_eq] at h
  rw [h]
  exact startsWith_self keyword

theorem cmpItems_le_iff (keyword : Str) (a b : ListItem) :
    cmpItems keyword a b ≤ 0 ↔ triggerRank keyword a ≤ triggerRank keyword b := by
  simp only [cmpItems, triggerRank]
  cases haE : lower a.trigger == keyword <;>
    cases hbE : lower b.trigger == keyword <;>
      cases haS : startsWith (lower a.trigger) keyword <;>
        cases hbS : startsWith (lower b.trigger) keyword <;>
          simp_all [startsWith_self]

theorem triggerRank_eq_zero (keyword : Str) (item : ListItem) :
    (triggerRank keyword item == 0) = (lower item.trigger == keyword) := by
  unfold triggerRank
  cases hE : lower item.trigger == keyword <;>
    cases hS : startsWith (lower item.trigger) keyword <;> simp_all

theorem triggerRank_eq_one (keyword : Str) (item : ListItem) :
    (triggerRank keyword item == 1)
      = (startsWith (lower item.trigger) keyword && !(lower item.trigger == keyword)) := by
  unfold triggerRank
  cases hE : lower item.trigger == keyword <;>
    cases hS : startsWith (lower item.trigger) keyword <;>
      simp_all [startsWith_self]

theorem triggerRank_eq_two (keyword : Str) (item : ListItem) :
    (triggerRank keyword item == 2) = !startsWith (lower item.trigger) keyword := by
  unfold triggerRank
  cases hE : lower item.trigger == keyword <;>
    cases hS : startsWith (lower item.trigger) keyword <;>
      simp_all [startsWith_self]

theorem includes_eq_decide (hay needle : Str) :
    includes hay needle = decide (needle <:+: hay) := by
  by_cases h : needle <:+: hay
  · simp [h, (includes_iff hay needle).mpr h]
  · have h1 : includes hay needle = false := by
      rcases hi : includes hay needle with _ | _
      · rfl
      · exact absurd ((includes_iff hay needle).mp hi) h
    rw [h1, decide_eq_false h]

/-- A stable sort by a numeric key leaves each key class exactly as it
occurs in the input list. -/
theorem mergeSort_rank_filter {α : Type} (f : α → Nat) (l : List α) (k : Nat) :
    (l.mergeSort fun a b => decide (f a ≤ f b)).filter (fun x => f x == k)
      = l.filter (fun x => f x == k) := by
  have trans : ∀ a b c : α, (decide (f a ≤ f b)) → (decide (f b ≤ f c)) →
      (decide (f a ≤ f c)) = true := by
    intro a b c hab hbc
    simp only [decide_eq_true_eq] at *
    omega
  have total : ∀ a b : α, (decide (f a ≤ f b) || decide (f b ≤ f a)) = true := by
    intro a b
    rcases Nat.le_total (f a) (f b) with h | h <;> simp [h]
  have hmem : ∀ x ∈ l.filter (fun x => f x == k), f x = k := by
    intro x hx
    have := (List.mem_filter.mp hx).2
    simpa using this
  have hpw : (l.filter (fun x => f x == k)).Pairwise
      (fun a b => (decide (f a ≤ f b)) = true) := by
    apply List.pairwise_of_forall_mem_list
    intro a ha b hb
    simp [hmem a ha, hmem b hb]
  have hsub : List.Sublist (l.filter (fun x => f x == k))
      (l.mergeSort fun a b => decide (f a ≤ f b)) :=
    List.sublist_mergeSort trans total hpw (List.filter_sublist l)
  have h1 : List.Sublist (l.filter (fun x => f x == k))
      ((l.mergeSort fun a b => decide (f a ≤ f b)).filter (fun x => f x == k)) := by
    have h' := hsub.filter (fun x => f x == k)
    rwa [List.filter_filter, List.filter_congr (p := fun x => (f x == k) && (f x == k))
      (q := fun x => f x == k) (by intro x _; simp)] at h'
  have h2 : ((l.mergeSort fun a b => decide (f a ≤ f b)).filter (fun x => f x == k)).Perm
      (l.filter (fun x => f x == k)) :=
    (List.mergeSort_perm l _).filter _
  exact (h1.eq_of_length h2.length_eq.symm).symm

/-- A list sorted by a key bounded by 2 is the concatenation of its three
key classes. -/
theorem pairwise_rank_decomp {α : Type} (f : α → Nat) (l : List α)
    (hb : ∀ x ∈ l, f x ≤ 2)
    (hp : l.Pairwise (fun a b => f a ≤ f b)) :
    l = l.filter (fun x => f x == 0) ++ l.filter (fun x => f x == 1)
        ++ l.filter (fun x => f x == 2) := by
  induction l with
  | nil => rfl
  | cons x l ih =>
    rcases List.pairwise_cons.mp hp with ⟨hx, hl⟩
    have hb' : ∀ y ∈ l, f y ≤ 2 := fun y hy => hb y (List.mem_cons_of_mem _ hy)
    have ihl := ih hb' hl
    have hx2 : f x ≤ 2 := hb x (List.mem_cons_self x l)
    have hfx : f x = 0 ∨ f x = 1 ∨ f x = 2 := by omega
    rcases hfx with h0 | h1 | h2
    · simp only [List.filter_cons, h0]
      simp only [show ((0 : Nat) == 0) = true from rfl,
        show ((0 : Nat) == 1) = false from rfl, show ((0 : Nat) == 2) = false from rfl,
        if_true, if_false, Bool.false_eq_true, List.cons_append]
      exact congrArg (x :: ·) ihl
    · have e0 : l.filter (fun y => f y == 0) = [] := by
        apply List.filter_eq_nil_iff.mpr
        intro y hy
        have := hx y hy
        simp only [beq_iff_eq]
        omega
      have e0' : l.filter (fun y => f y == 0) = [] := e0
      simp only [List.filter_cons, h1]
      simp only [show ((1 : Nat) == 0) = false from rfl,
        show ((1 : Nat) == 1) = true from rfl, show ((1 : Nat) == 2) = false from rfl,
        if_true, if_false, Bool.false_eq_true, e0, List.nil_append, List.cons_append]
      rw [e0, List.nil_append] at ihl
      exact congrArg (x :: ·) ihl
    · have e0 : l.filter (fun y => f y == 0) = [] := by
        apply List.filter_eq_nil_iff.mpr
        intro y hy
        have := hx y hy
        simp only [beq_iff_eq]
        omega
      have e1 : l.filter (fun y => f y == 1) = [] := by
        apply List.filter_eq_nil_iff.mpr
        intro y hy
        have := hx y hy
        simp only [beq_iff_eq]
        omega
      simp only [List.filter_cons, h2]
      simp only [show ((2 : Nat) == 0) = false from rfl,
        show ((2 : Nat) == 1) = false from rfl, show ((2 : Nat) == 2) = true from rfl,
        if_true, if_false, Bool.false_eq_true, e0, e1, List.nil_append, List.cons_append]
      rw [e0, e1, List.nil_append, List.nil_append] at ihl
      exact congrArg (x :: ·) ihl

/-- C1: `match` returns the empty sequence on the empty query (no show-all
fallback), and on a non-empty query returns exactly the entries whose
`trigger`, `title` or `subtitle` contains the query as a case-insensitive
substring (stated as a permutation: the same entries with the same
multiplicities; their order is the subject of C2). -/
theorem matchedItems_candidates (items : List ListItem) (q : Str) :
    matchedItems items [] = [] ∧
    (q ≠ [] → (matchedItems items q).Perm (items.filter fun it =>
      decide (lower q <:+: lower it.trigger) || decide (lower q <:+: lower it.title)
        || decide (lower q <:+: lower it.subtitle))) := by
  constructor
  · simp [matchedItems]
  · intro hq
    have hf : items.filter (fun it =>
        decide (lower q <:+: lower it.trigger) || decide (lower q <:+: lower it.title)
          || decide (lower q <:+: lower it.subtitle))
        = items.filter (itemMatches (lower q)) := by
      apply List.filter_congr
      intro it _
      simp [itemMatches, includes_eq_decide]
    simp only [matchedItems, if_neg hq]
    rw [hf]
    exact List.mergeSort_perm _ _

/-- C2: on a non-empty query the candidate list is exactly: the matching
entries whose trigger case-insensitively equals the query first, then
those whose trigger merely starts with the query, then the remaining
matches, each block keeping the collection's relative order (the sort is
stable). -/
theorem matchedItems_order (items : List ListItem) (q : Str) (hq : q ≠ []) :
    matchedItems items q =
      ((items.filter (itemMatches (lower q))).filter fun it =>
        lower it.trigger == lower q)
      ++ ((items.filter (itemMatches (lower q))).filter fun it =>
            startsWith (lower it.trigger) (lower q) && !(lower it.trigger == lower q))
      ++ ((items.filter (itemMatches (lower q))).filter fun it =>
            !startsWith (lower it.trigger) (lower q)) := by
  have hle : (fun a b => decide (cmpItems (lower q) a b ≤ 0))
      = fun a b =>
          decide (triggerRank (lower q) a ≤ triggerRank (lower q) b) := by
    funext a b
    exact decide_eq_decide.mpr (cmpItems_le_iff (lower q) a b)
  simp only [matchedItems, if_neg hq]
  rw [hle]
  have htrans : ∀ a b c : ListItem,
      decide (triggerRank (lower q) a ≤ triggerRank (lower q) b) = true →
      decide (triggerRank (lower q) b ≤ triggerRank (lower q) c) = true →
      decide (triggerRank (lower q) a ≤ triggerRank (lower q) c) = true := by
    intro a b c hab hbc
    simp only [decide_eq_true_eq] at *
    omega
  have htotal : ∀ a b : ListItem,
      (decide (triggerRank (lower q) a ≤ triggerRank (lower q) b)
        || decide (triggerRank (lower q) b ≤ triggerRank (lower q) a)) = true := by
    intro a b
    rcases Nat.le_total (triggerRank (lower q) a) (triggerRank (lower q) b) with h | h <;>
      simp [h]
  have hsorted : ((items.filter (itemMatches (lower q))).mergeSort fun a b =>
      decide (triggerRank (lower q) a ≤ triggerRank (lower q) b)).Pairwise
        fun a b => triggerRank (lower q) a ≤ triggerRank (lower q) b :=
    (List.sorted_mergeSort htrans htotal _).imp fun h => decide_eq_true_eq.mp h
  have hbnd : ∀ x ∈ (items.filter (itemMatches (lower q))).mergeSort fun a b =>
      decide (triggerRank (lower q) a ≤ triggerRank (lower q) b),
      triggerRank (lower q) x ≤ 2 :=
    fun x _ => triggerRank_le_two (lower q) x
  have hdec := pairwise_rank_decomp (fun x => triggerRank (lower q) x) _ hbnd hsorted
  rw [hdec, mergeSort_rank_filter (fun x => triggerRank (lower q) x) _ 0,
    mergeSort_rank_filter (fun x => triggerRank (lower q) x) _ 1,
    mergeSort_rank_filter (fun x => triggerRank (lower q) x) _ 2,
    List.filter_congr (fun it _ => triggerRank_eq_zero (lower q) it),
    List.filter_congr (fun it _ => triggerRank_eq_one (lower q) it),
    List.filter_congr (fun it _ => triggerRank_eq_two (lower q) it)]

/-- Example entry with trigger "email" (Scenario A of the spec). -/
def itemEmail : ListItem :=
  { id := ['1'], title := ['m', 'a', 'i', 'l'], subtitle := [],
    trigger := ['e', 'm', 'a', 'i', 'l'], data := ['p', '1'] }

/-- Example entry with trigger "em" (Scenario A of the spec). -/
def itemEm : ListItem :=
  { id := ['2'], title := ['e', 'm'], subtitle := [],
    trigger := ['e', 'm'], data := ['p', '2'] }

theorem matchedItems_candidates_witness :
    (['e', 'm'] : Str) ≠ [] ∧
    (matchedItems [itemEmail, itemEm] ['e', 'm']).Perm
      ([itemEmail, itemEm].filter fun it =>
        decide (lower ['e', 'm'] <:+: lower it.trigger)
          || decide (lower ['e', 'm'] <:+: lower it.title)
          || decide (lower ['e', 'm'] <:+: lower it.subtitle)) :=
  ⟨by decide, (matchedItems_candidates [itemEmail, itemEm] ['e', 'm']).2 (by decide)⟩

theorem matchedItems_order_witness :
    matchedItems [itemEmail, itemEm] ['e', 'm'] =
      (([itemEmail, itemEm].filter (itemMatches (lower ['e', 'm']))).filter fun it =>
        lower it.trigger == lower ['e', 'm'])
      ++ (([itemEmail, itemEm].filter (itemMatches (lower ['e', 'm']))).filter fun it =>
            startsWith (lower it.trigger) (lower ['e', 'm'])
              && !(lower it.trigger == lower ['e', 'm']))
      ++ (([itemEmail, itemEm].filter (itemMatches (lower ['e', 'm']))).filter fun it =>
            !startsWith (lower it.trigger) (lower ['e', 'm'])) :=
  matchedItems_order [itemEmail, itemEm] ['e', 'm'] (by decide)

/-- State of the search view.  `timerPending` models a scheduled (and not
yet fired or cancelled) `setTimeout` auto-commit; `listenerAttached`
models the document keydown listener; `copied` records, in order, the
texts handed to `utools.copyText` (each copy is immediately followed by
`hideMainWindow` and `outPlugin`, which are not modelled further). -/
structure SearchState where
  listItems : List ListItem
  searchKeyword : Str
  selectedIndex : Nat
  listenerAttached : Bool
  timerPending : Bool
  copied : List Str
deriving DecidableEq, Repr

/-- The `copySelectedItem` handler of the search view: when the candidate
list is non-empty and the selected index is in range, copies the selected
candidate's `data` payload (then hides the window and exits the plugin).
The selected index is a `Nat` since it starts at 0 and is only ever
incremented or decremented under a positivity guard. -/
def copySelectedItem (s : SearchState) : SearchState :=
  let m := matchedItems s.listItems s.searchKeyword
  if h : 0 < m.length ∧ s.selectedIndex < m.length then
    { s with copied := s.copied ++ [(m.get ⟨s.selectedIndex, h.2⟩).data] }
  else s

/-- Keyboard events handled by the search view's `handleKeydown`. -/
inductive Key where
  | arrowDown
  | arrowUp
  | enterKey
  | escapeKey
deriving DecidableEq, Repr

/-- The `handleKeydown` handler.  ArrowDown increments the selected index
when it is below `matchedItems.length - 1` (for an empty candidate list
the JavaScript comparison `0 < -1` and the `Nat` comparison `0 < 0` are
both false); ArrowUp decrements it when positive; Enter commits; Escape
exits the plugin, leaving the selection state untouched. -/
def handleKeydown (s : SearchState) : Key → SearchState
  | Key.arrowDown =>
    if s.selectedIndex < (matchedItems s.listItems s.searchKeyword).length - 1 then
      { s with selectedIndex := s.selectedIndex + 1 }
    else s
  | Key.arrowUp =>
    if 0 < s.selectedIndex then
      { s with selectedIndex := s.selectedIndex - 1 }
    else s
  | Key.enterKey => copySelectedItem s
  | Key.escapeKey => s

/-- The `onMounted` hook of the search view: loads the persisted items,
seeds the keyword from the (truthy) enter-action payload, attaches the
keydown listener, and, when there is exactly one candidate whose trigger
case-insensitively equals the keyword, schedules the 100 ms auto-commit
timer. -/
def mountSearch (items : List ListItem) (payload : Str) : SearchState :=
  let kw : Str := if payload = [] then [] else payload
  let s : SearchState :=
    { listItems := items, searchKeyword := kw, selectedIndex := 0,
      listenerAttached := true, timerPending := false, copied := [] }
  match matchedItems items kw with
  | [x] => if lower x.trigger == lower kw then { s with timerPending := true } else s
  | _ => s

/-- Firing of the scheduled `setTimeout` callback: runs `copySelectedItem`
once, if the timer is still pending. -/
def fireSettleTimer (s : SearchState) : SearchState :=
  if s.timerPending then
    { copySelectedItem s with timerPending := false }
  else s

/-- The `onUnmounted` hook of the search view: removes the keydown
listener.  The source never calls `clearTimeout`, so a pending settle
timer survives teardown. -/
def unmountSearch (s : SearchState) : SearchState :=
  { s with listenerAttached := false }

/-- Example sole entry with trigger "a" and payload "pld", used to
exercise the auto-commit timer. -/
def itemSole : ListItem :=
  { id := ['9'], title := ['t'], subtitle := [], trigger := ['a'],
    data := ['p', 'l', 'd'] }

theorem matchedItems_itemSole : matchedItems [itemSole] ['a'] = [itemSole] := by
  simp [matchedItems, itemMatches, itemSole, includes, startsWith, lower]

/-- C3 (divergence at the failing input): mounting the search view with
seeded query "a" over the single entry whose trigger is "a" schedules the
settle-timer commit; unmounting the view leaves the timer pending (the
source never calls `clearTimeout`), and when the timer then fires the
commit still occurs — the entry's payload is copied after teardown,
contradicting the required cancellation. -/
theorem autoCommit_survives_unmount :
    (unmountSearch (mountSearch [itemSole] ['a'])).timerPending = true ∧
    (fireSettleTimer (unmountSearch (mountSearch [itemSole] ['a']))).copied
      = [['p', 'l', 'd']] := by
  have hmount : mountSearch [itemSole] ['a'] =
      { listItems := [itemSole], searchKeyword := ['a'], selectedIndex := 0,
        listenerAttached := true, timerPending := true, copied := [] } := by
    have hif : (if (['a'] : Str) = [] then ([] : Str) else ['a']) = ['a'] := by decide
    simp only [mountSearch, hif, matchedItems_itemSole]
    have htrig : (lower itemSole.trigger == lower ['a']) = true := by decide
    rw [htrig]
    rfl
  constructor
  · rw [hmount]
    rfl
  · rw [hmount]
    simp only [unmountSearch, fireSettleTimer, copySelectedItem, matchedItems_itemSole]
    simp [matchedItems_itemSole]
    decide

theorem handleKeydown_move (s : SearchState) (k : Key)
    (hk : k = Key.arrowDown ∨ k = Key.arrowUp) :
    (handleKeydown s k).listItems = s.listItems ∧
    (handleKeydown s k).searchKeyword = s.searchKeyword ∧
    (0 < (matchedItems s.listItems s.searchKeyword).length →
      s.selectedIndex ≤ (matchedItems s.listItems s.searchKeyword).length - 1 →
      (handleKeydown s k).selectedIndex
        ≤ (matchedItems s.listItems s.searchKeyword).length - 1) ∧
    (s.selectedIndex = 0 → (matchedItems s.listItems s.searchKeyword).length = 0 →
      (handleKeydown s k).selectedIndex = 0) := by
  rcases hk with rfl | rfl <;> simp only [handleKeydown] <;> split <;>
    refine ⟨rfl, rfl, fun h1 h2 => ?_, fun h1 h2 => ?_⟩ <;> simp_all <;> omega

theorem foldl_handleKeydown_inv (items : List ListItem) (kw : Str) :
    ∀ (keys : List Key) (s : SearchState),
    (∀ k ∈ keys, k = Key.arrowDown ∨ k = Key.arrowUp) →
    s.listItems = items → s.searchKeyword = kw →
    (0 < (matchedItems items kw).length →
      s.selectedIndex ≤ (matchedItems items kw).length - 1) →
    ((matchedItems items kw).length = 0 → s.selectedIndex = 0) →
    (keys.foldl handleKeydown s).listItems = items ∧
    (keys.foldl handleKeydown s).searchKeyword = kw ∧
    (0 < (matchedItems items kw).length →
      (keys.foldl handleKeydown s).selectedIndex
        ≤ (matchedItems items kw).length - 1) ∧
    ((matchedItems items kw).length = 0 →
      (keys.foldl handleKeydown s).selectedIndex = 0) := by
  intro keys
  induction keys with
  | nil =>
    intro s _ h1 h2 h3 h4
    exact ⟨h1, h2, h3, h4⟩
  | cons k keys ih =>
    intro s hk h1 h2 h3 h4
    have hmove := handleKeydown_move s k (hk k (List.mem_cons_self k keys))
    rw [h1, h2] at hmove
    have hzero : (matchedItems items kw).length = 0 →
        (handleKeydown s k).selectedIndex = 0 := fun h0 =>
      hmove.2.2.2 (h4 h0) h0
    exact ih (handleKeydown s k)
      (fun k' hk' => hk k' (List.mem_cons_of_mem k hk'))
      hmove.1 hmove.2.1
      (fun hpos => hmove.2.2.1 hpos (h3 hpos))
      hzero

theorem mountSearch_fields (items : List ListItem) (payload : Str) :
    (mountSearch items payload).listItems = items ∧
    (mountSearch items payload).searchKeyword
      = (if payload = [] then [] else payload) ∧
    (mountSearch items payload).selectedIndex = 0 := by
  refine ⟨?_, ?_, ?_⟩ <;> simp only [mountSearch] <;> (repeat' split) <;> rfl

/-- C4: from session start, for every sequence of move-up and move-down
actions the selected index stays within `[0, len-1]` whenever the
candidate list is non-empty (move-down clamps at `len - 1` with no
wraparound, move-up clamps at 0), and equals 0 whenever the candidate
list is empty.  The candidate list itself is fixed for the whole session:
the keyword is only ever set at mount. -/
theorem selectedIndex_bounds (items : List ListItem) (payload : Str)
    (keys : List Key)
    (hk : ∀ k ∈ keys, k = Key.arrowDown ∨ k = Key.arrowUp) :
    let s := keys.foldl handleKeydown (mountSearch items payload)
    let n := (matchedItems s.listItems s.searchKeyword).length
    (0 < n → 0 ≤ s.selectedIndex ∧ s.selectedIndex ≤ n - 1) ∧
    (n = 0 → s.selectedIndex = 0) ∧
    (s.selectedIndex = n - 1 →
      (handleKeydown s Key.arrowDown).selectedIndex = n - 1) ∧
    (s.selectedIndex = 0 → (handleKeydown s Key.arrowUp).selectedIndex = 0) := by
  intro s n
  obtain ⟨hli, hkw, hidx⟩ := mountSearch_fields items payload
  have hinv := foldl_handleKeydown_inv items
    (if payload = [] then [] else payload) keys (mountSearch items payload)
    hk hli hkw (by rw [hidx]; omega) (by rw [hidx]; intro; rfl)
  have hs1 : s.listItems = items := hinv.1
  have hs2 : s.searchKeyword = (if payload = [] then [] else payload) := hinv.2.1
  have hn : n = (matchedItems items (if payload = [] then [] else payload)).length := by
    simp only [n, hs1, hs2]
  refine ⟨fun hpos => ⟨Nat.zero_le _, ?_⟩, fun h0 => ?_, fun htop => ?_, fun h0 => ?_⟩
  · rw [hn] at hpos ⊢
    exact hinv.2.2.1 hpos
  · rw [hn] at h0
    exact hinv.2.2.2 h0
  · simp only [handleKeydown]
    split
    · omega
    · exact htop
  · simp only [handleKeydown, h0]
    rw [if_neg (by decide : ¬ (0 : Nat) < 0)]
    exact h0

theorem selectedIndex_bounds_witness :
    (matchedItems
        (([Key.arrowDown, Key.arrowUp].foldl handleKeydown
          (mountSearch [] [])).listItems)
        (([Key.arrowDown, Key.arrowUp].foldl handleKeydown
          (mountSearch [] [])).searchKeyword)).length = 0 ∧
    ([Key.arrowDown, Key.arrowUp].foldl handleKeydown
      (mountSearch [] [])).selectedIndex = 0 :=
  ⟨by decide,
    (selectedIndex_bounds [] [] [Key.arrowDown, Key.arrowUp] (by decide)).2.1
      (by decide)⟩

/-- The add/edit form state of the manager view (`formData`). -/
structure Draft where
  title : Str
  subtitle : Str
  trigger : Str
  data : Str
deriving DecidableEq, Repr

/-- Observable outcome of a manager mutation: the resulting collection,
whether an error dialog was reported (`alert`), and whether the
collection was persisted (`saveData`). -/
structure OpResult where
  items : List ListItem
  alerted : Bool
  persisted : Bool
deriving DecidableEq, Repr

/-- The new entry built by `addItem` from the form and the clock value
(`Date.now()`): the id is the clock's decimal string. -/
def draftEntry (form : Draft) (now : Nat) : ListItem :=
  { id := Nat.toDigits 10 now, title := form.title, subtitle := form.subtitle,
    trigger := form.trigger, data := form.data }

/-- The entry produced by the object spread in `updateItem`: the edited
entry with the four draft fields overwritten (the id is kept). -/
def applyDraft (editing : ListItem) (form : Draft) : ListItem :=
  { editing with
    title := form.title, subtitle := form.subtitle,
    trigger := form.trigger, data := form.data }

/-- The `addItem` handler of the manager view: an empty (falsy) title or
trigger is reported with an alert and nothing is mutated; otherwise a new
entry whose id is `Date.now().toString()` — modelled by the decimal
digits of the clock argument `now` — is appended and the collection is
persisted. -/
def addItem (items : List ListItem) (form : Draft) (now : Nat) : OpResult :=
  if form.title = [] ∨ form.trigger = [] then
    { items := items, alerted := true, persisted := false }
  else
    { items := items ++ [draftEntry form now], alerted := false, persisted := true }

/-- The `updateItem` handler of the manager view: looks the edited entry
up by id (`findIndex`); when found, overwrites the four draft fields in
place (the object spread keeps the id and the position) and persists;
when the id is absent (`index === -1`) nothing happens at all — no
dialog, no write. -/
def updateItem (items : List ListItem) (editing : ListItem) (form : Draft) : OpResult :=
  match items.findIdx? (fun it => it.id == editing.id) with
  | some i =>
    { items := items.set i (applyDraft editing form),
      alerted := false, persisted := true }
  | none => { items := items, alerted := false, persisted := false }

/-- The `filteredItems` computed property of the manager view: an empty
keyword shows the whole collection; otherwise entries whose lowercased
title, subtitle or trigger contains the lowercased keyword. -/
def filteredItems (items : List ListItem) (searchKeyword : Str) : List ListItem :=
  if searchKeyword = [] then items
  else items.filter fun item =>
    includes (lower item.title) (lower searchKeyword) ||
    includes (lower item.subtitle) (lower searchKeyword) ||
    includes (lower item.trigger) (lower searchKeyword)

/-- Example draft with non-empty title and trigger. -/
def exDraft : Draft := { title := ['n'], subtitle := [], trigger := ['n'], data := ['d'] }

/-- Example entry whose id collides with `Date.now().toString()` at clock
value 0. -/
def itemZero : ListItem :=
  { id := ['0'], title := ['z'], subtitle := [], trigger := ['z'], data := [] }

/-- C5 as stated by the spec: an update whose target id is absent reports
an error (`NotFoundError`). -/
def updateReportsMissing : Prop :=
  ∀ (items : List ListItem) (editing : ListItem) (form : Draft),
    (∀ it ∈ items, it.id ≠ editing.id) →
    (updateItem items editing form).alerted = true

/-- C5 counterexample: updating the empty collection (any absent id)
reports nothing — the source's `updateItem` silently falls through when
`findIndex` returns -1. -/
theorem updateItem_no_report : ¬ updateReportsMissing := by
  intro h
  have h2 := h [] itemSole exDraft (fun it hit => absurd hit (List.not_mem_nil it))
  exact absurd h2 (by decide)

theorem findIdx?_append_cons {α : Type} {p : α → Bool} (pre post : List α) (x : α)
    (hpre : ∀ y ∈ pre, p y = false) (hx : p x = true) :
    (pre ++ x :: post).findIdx? p = some pre.length := by
  induction pre with
  | nil => simp [hx]
  | cons a pre ih =>
    have ha : p a = false := hpre a (List.mem_cons_self a pre)
    have ih' := ih fun y hy => hpre y (List.mem_cons_of_mem a hy)
    simp [ha, List.findIdx?_succ, ih']

theorem set_append_cons {α : Type} (pre post : List α) (x v : α) :
    (pre ++ x :: post).set pre.length v = pre ++ v :: post := by
  induction pre with
  | nil => rfl
  | cons a pre ih => simp [List.set_cons_succ, ih]

/-- C5 (amended): `updateItem` with an absent id is a silent no-op — the
collection is unchanged, nothing is persisted and no error is reported —
and with a present id it overwrites the first entry carrying that id in
place (same position, id kept, all other entries untouched) and
persists. -/
theorem updateItem_behavior (items : List ListItem) (editing : ListItem) (form : Draft) :
    ((∀ it ∈ items, it.id ≠ editing.id) →
      updateItem items editing form =
        { items := items, alerted := false, persisted := false }) ∧
    (∀ (pre post : List ListItem) (x : ListItem),
      items = pre ++ x :: post → x.id = editing.id →
      (∀ y ∈ pre, y.id ≠ editing.id) →
      updateItem items editing form =
        { items := pre ++ applyDraft editing form :: post,
          alerted := false, persisted := true }) := by
  constructor
  · intro habs
    have hnone : items.findIdx? (fun it => it.id == editing.id) = none := by
      rw [List.findIdx?_eq_none_iff]
      intro it hit
      simp [habs it hit]
    simp [updateItem, hnone]
  · intro pre post x hitems hx hpre
    subst hitems
    have hfind : (pre ++ x :: post).findIdx? (fun it => it.id == editing.id)
        = some pre.length := by
      apply findIdx?_append_cons
      · intro y hy
        simp [hpre y hy]
      · simp [hx]
    simp [updateItem, hfind, set_append_cons]

theorem updateItem_behavior_witness :
    updateItem [itemSole] itemSole exDraft =
      { items := [applyDraft itemSole exDraft],
        alerted := false, persisted := true } :=
  (updateItem_behavior [itemSole] itemSole exDraft).2 [] [] itemSole rfl rfl
    (fun y hy => absurd hy (List.not_mem_nil y))

/-- C6 as stated by the spec: a valid add assigns a fresh id that is
unique across the collection, i.e. it keeps the ids duplicate-free. -/
def addAssignsFreshId : Prop :=
  ∀ (items : List ListItem) (form : Draft) (now : Nat),
    form.title ≠ [] → form.trigger ≠ [] →
    (items.map ListItem.id).Nodup →
    (((addItem items form now).items).map ListItem.id).Nodup

/-- C6 counterexample: the id is just `Date.now().toString()`; adding at
clock value 0 to a collection that already contains an entry with id "0"
(reachable, e.g. via import, which trusts ids as-is) duplicates the
id. -/
theorem addItem_duplicate_id : ¬ addAssignsFreshId := by
  intro h
  exact absurd (h [itemZero] exDraft 0 (by decide) (by decide) (by decide)) (by decide)

/-- C6 (amended): an empty title or trigger is reported (alert) and
nothing is mutated; otherwise the entry is appended at the end with id
`Date.now().toString()` (decimal digits of the clock) and persisted —
the id is unique across the collection only when no existing entry
already carries the clock's string, which the code does not check. -/
theorem addItem_behavior (items : List ListItem) (form : Draft) (now : Nat) :
    (form.title = [] ∨ form.trigger = [] →
      addItem items form now = { items := items, alerted := true, persisted := false }) ∧
    (form.title ≠ [] → form.trigger ≠ [] →
      addItem items form now =
        { items := items ++ [draftEntry form now],
          alerted := false, persisted := true } ∧
      ((∀ it ∈ items, it.id ≠ Nat.toDigits 10 now) → (items.map ListItem.id).Nodup →
        (((addItem items form now).items).map ListItem.id).Nodup)) := by
  constructor
  · intro h
    simp [addItem, h]
  · intro h1 h2
    have hcond : ¬ (form.title = [] ∨ form.trigger = []) := by
      rintro (h | h)
      · exact h1 h
      · exact h2 h
    refine ⟨by simp [addItem, hcond], fun hfresh hnodup => ?_⟩
    simp only [addItem, if_neg hcond, List.map_append, List.map_cons, List.map_nil]
    rw [List.nodup_append]
    refine ⟨hnodup, List.nodup_singleton _, ?_⟩
    intro a ha hb
    simp only [List.mem_singleton] at hb
    subst hb
    rcases List.mem_map.mp ha with ⟨it, hit, hid⟩
    exact hfresh it hit hid

theorem addItem_behavior_witness :
    addItem [] exDraft 5 =
      { items := [draftEntry exDraft 5],
        alerted := false, persisted := true } :=
  ((addItem_behavior [] exDraft 5).2 (by decide) (by decide)).1

/-- C10: the management filter with an empty keyword returns the whole
collection unchanged (unlike the search engine's `matchedItems`, which is
empty on the empty query); with a non-empty keyword it returns exactly
the entries whose title, subtitle or trigger contains the keyword
case-insensitively, in collection order (a sublist of the collection). -/
theorem filteredItems_spec (items : List ListItem) (q : Str) :
    filteredItems items [] = items ∧
    List.Sublist (filteredItems items q) items ∧
    (q ≠ [] → filteredItems items q = items.filter fun it =>
      decide (lower q <:+: lower it.title) || decide (lower q <:+: lower it.subtitle)
        || decide (lower q <:+: lower it.trigger)) ∧
    matchedItems items [] = [] := by
  refine ⟨by simp [filteredItems], ?_, ?_, by simp [matchedItems]⟩
  · unfold filteredItems
    split
    · exact List.Sublist.refl items
    · exact List.filter_sublist items
  · intro hq
    simp only [filteredItems, if_neg hq]
    apply List.filter_congr
    intro it _
    simp [includes_eq_decide]

theorem filteredItems_spec_witness :
    filteredItems [itemEmail, itemEm] ['e', 'm'] =
      [itemEmail, itemEm].filter fun it =>
        decide (lower ['e', 'm'] <:+: lower it.title)
          || decide (lower ['e', 'm'] <:+: lower it.subtitle)
          || decide (lower ['e', 'm'] <:+: lower it.trigger) :=
  (filteredItems_spec [itemEmail, itemEm] ['e', 'm']).2.2.1 (by decide)

/-- JSON values, the result of `JSON.parse` on the import file and the
content serialized by `JSON.stringify` on export (the textual layer of
stringify/parse is the identity on this tree and is not modelled
further). -/
inductive Json where
  | jnull
  | jbool (b : Bool)
  | jnum (n : Int)
  | jstr (s : Str)
  | jarr (elems : List Json)
  | jobj (fields : List (Str × Json))

/-- The key "data". -/
def dataKey : Str := ['d', 'a', 't', 'a']

/-- The key "version". -/
def versionKey : Str := ['v', 'e', 'r', 's', 'i', 'o', 'n']

/-- The key "timestamp". -/
def timestampKey : Str := ['t', 'i', 'm', 'e', 's', 't', 'a', 'm', 'p']

/-- The key "id". -/
def idKey : Str := ['i', 'd']

/-- The key "title". -/
def titleKey : Str := ['t', 'i', 't', 'l', 'e']

/-- The key "subtitle". -/
def subtitleKey : Str := ['s', 'u', 'b', 't', 'i', 't', 'l', 'e']

/-- The key "trigger". -/
def triggerKey : Str := ['t', 'r', 'i', 'g', 'g', 'e', 'r']

/-- Member access `value.key` on a parsed JSON value: a field lookup on
objects, `undefined` (here `none`) otherwise. -/
def getField : Json → Str → Option Json
  | Json.jobj fields, key => (fields.find? (fun f => f.1 == key)).map (fun f => f.2)
  | _, _ => none

/-- JavaScript truthiness of a parsed JSON value. -/
def truthy : Json → Bool
  | Json.jnull => false
  | Json.jbool b => b
  | Json.jnum n => !(n == 0)
  | Json.jstr s => !s.isEmpty
  | Json.jarr _ => true
  | Json.jobj _ => true

/-- `Array.isArray` combined with array access: the elements when the
value is an array. -/
def arrayElems : Json → Option (List Json)
  | Json.jarr xs => some xs
  | _ => none

/-- The JSON reflection of an entry: in JavaScript the in-memory record
and its parsed JSON object are the same value, so an entry is encoded as
the object with its five string fields. -/
def encodeItem (it : ListItem) : Json :=
  Json.jobj [(idKey, Json.jstr it.id), (titleKey, Json.jstr it.title),
    (subtitleKey, Json.jstr it.subtitle), (triggerKey, Json.jstr it.trigger),
    (dataKey, Json.jstr it.data)]

/-- The snapshot built by `exportData`: version tag "1.0", a generation
timestamp, and the full collection under "data".  The export only reads
the collection (it is a pure function of it). -/
def exportData (listItems : List ListItem) (timestamp : Str) : Json :=
  Json.jobj [(versionKey, Json.jstr ['1', '.', '0']),
    (timestampKey, Json.jstr timestamp),
    (dataKey, Json.jarr (listItems.map encodeItem))]

/-- The format validation of `importData`: accept an object whose `data`
member is (truthy and) an array, or a bare array, and return the sequence
that will replace the collection; reject anything else (`none` — the
alert path, after which the collection is left untouched).  The final
JavaScript check `dataToImport && dataToImport.length >= 0` is kept
literally: an array is always truthy and its length is never negative. -/
def importData (raw : Json) : Option (List Json) :=
  let dataToImport : Option (List Json) :=
    match getField raw dataKey with
    | some v =>
      if truthy v && (arrayElems v).isSome then arrayElems v
      else arrayElems raw
    | none => arrayElems raw
  match dataToImport with
  | some xs => if 0 ≤ xs.length then some xs else none
  | none => none

/-- A successful import replaces the whole live collection; a rejected
one leaves it untouched (the confirmation dialog, which can also abort
the replacement, is taken as accepted). -/
def applyImport (current : List Json) (raw : Json) : List Json :=
  match importData raw with
  | some xs => xs
  | none => current

theorem importFinalCheck (o : Option (List Json)) :
    (match o with
      | some xs => some xs
      | none => none) = o := by
  rcases o with _ | xs <;> rfl

theorem importData_characterization (raw : Json) :
    importData raw =
      match getField raw dataKey with
      | some (Json.jarr xs) => some xs
      | some _ => arrayElems raw
      | none => arrayElems raw := by
  unfold importData
  rcases h : getField raw dataKey with _ | v
  · simp [h, importFinalCheck]
  · cases v <;> simp [h, truthy, arrayElems, importFinalCheck]

/-- C7: importing an exported snapshot accepts it and yields back exactly
the exported collection — the imported sequence is the collection's JSON
reflection element by element, in order — and the reflection is injective,
so the collection is recovered field-for-field.  Export itself is a pure
function of the collection (it mutates nothing). -/
theorem import_export_roundtrip (items : List ListItem) (ts : Str) :
    importData (exportData items ts) = some (items.map encodeItem) ∧
    ∀ a b : ListItem, encodeItem a = encodeItem b → a = b := by
  constructor
  · have h1 : (versionKey == dataKey) = false := by decide
    have h2 : (timestampKey == dataKey) = false := by decide
    have h3 : (dataKey == dataKey) = true := by decide
    have hg : getField (exportData items ts) dataKey
        = some (Json.jarr (items.map encodeItem)) := by
      simp [exportData, getField, List.find?, h1, h2, h3]
    rw [importData_characterization, hg]
  · intro a b h
    cases a
    cases b
    simp only [encodeItem, Json.jobj.injEq, List.cons.injEq, Prod.mk.injEq,
      Json.jstr.injEq, and_true, true_and] at h
    simp_all

/-- C8: the import accepts exactly two input shapes — an object carrying
an array under `data`, or a bare array — and the accepted sequence
replaces the whole live collection; any other shape is rejected, leaving
the collection untouched. -/
theorem importData_shapes (raw : Json) (current : List Json) :
    ((importData raw).isSome ↔
      (∃ xs, getField raw dataKey = some (Json.jarr xs)) ∨
      (∃ xs, raw = Json.jarr xs)) ∧
    (importData raw = none → applyImport current raw = current) ∧
    (∀ xs, importData raw = some xs → applyImport current raw = xs) := by
  refine ⟨?_, fun h => by simp [applyImport, h], fun xs h => by simp [applyImport, h]⟩
  cases raw with
  | jobj fields =>
    rcases h : getField (Json.jobj fields) dataKey with _ | v
    · simp [importData_characterization, h, arrayElems]
    · cases v <;> simp [importData_characterization, h, arrayElems]
  | jnull => simp [importData_characterization, getField, arrayElems]
  | jbool b => simp [importData_characterization, getField, arrayElems]
  | jnum n => simp [importData_characterization, getField, arrayElems]
  | jstr s => simp [importData_characterization, getField, arrayElems]
  | jarr xs => simp [importData_characterization, getField, arrayElems]

theorem importData_shapes_witness :
    importData (Json.jnum 3) = none ∧
    applyImport [encodeItem itemSole] (Json.jnum 3) = [encodeItem itemSole] :=
  ⟨rfl, (importData_shapes (Json.jnum 3) [encodeItem itemSole]).2.1 rfl⟩

/-- Line terminators, which `.` in a JavaScript regular expression (without
the `s` flag) does not match. -/
def isLineTerm (c : Char) : Bool :=
  c == '\n' || c == '\r' || c == ' ' || c == ' '

/-- Model of `String.prototype.trim`: strips whitespace from both ends. -/
def trimStr (s : Str) : Str :=
  ((s.dropWhile (fun c => c.isWhitespace)).reverse.dropWhile
    (fun c => c.isWhitespace)).reverse

/-- The test `payload.match(/^wj\s+(.+)$/)` in the `onPluginEnter` handler,
returning the captured group when the payload matches.  The greedy `\s+`
takes the maximal whitespace run; when nothing would remain for `(.+)` it
backtracks by exactly one character.  `(.+)` requires every remaining
character to be matched by `.`, which excludes line terminators.  The
class `\s` is modelled by `Char.isWhitespace`. -/
def matchWj (payload : Str) : Option Str :=
  if startsWith payload ['w', 'j'] then
    let t := payload.drop 2
    let m := (t.takeWhile (fun c => c.isWhitespace)).length
    let r := t.drop m
    if m = 0 then none
    else if r ≠ [] then
      if r.all (fun c => !isLineTerm c) then some r else none
    else if decide (2 ≤ m) && (match t.getLast? with
        | some c => !isLineTerm c
        | none => false) then some (t.drop (m - 1))
    else none
  else none

/-- The payload transformation of the `onPluginEnter` handler for the
search code: a truthy payload matching the launcher pattern is replaced
by the captured group's trim; anything else is used verbatim (the source
additionally guards on the truthiness of the captured group, which is
never empty when the match succeeds). -/
def routeQuery (payload : Str) : Str :=
  if payload = [] then payload
  else
    match matchWj payload with
    | some g => if g = [] then payload else trimStr g
    | none => payload

/-- C9 as stated by the spec: when the payload matches the launcher
pattern `^wj\s+(.+)$`, the captured trailing free text itself is used as
the query. -/
def routeUsesRawGroup : Prop :=
  ∀ (payload g : Str), matchWj payload = some g → routeQuery payload = g

/-- C9 counterexample: on payload "wj a " (trailing blank) the captured
group is "a " but the code trims it to "a" before using it as the
query. -/
theorem routeQuery_trims : ¬ routeUsesRawGroup := by
  intro h
  have h2 := h ['w', 'j', ' ', 'a', ' '] ['a', ' '] (by decide)
  exact absurd h2 (by decide)

theorem takeWhile_all_append {p : Char → Bool} (w r : Str)
    (hw : w.all p = true) (hr : ∀ c ∈ r.take 1, p c = false) :
    (w ++ r).takeWhile p = w := by
  induction w with
  | nil =>
    cases r with
    | nil => rfl
    | cons c t =>
      simp only [List.nil_append, List.takeWhile_cons,
        hr c (by simp [List.take]), Bool.false_eq_true, if_false]
  | cons a w ih =>
    rw [List.all_cons, Bool.and_eq_true] at hw
    simp [List.takeWhile_cons, hw.1, ih hw.2]

/-- C9 (amended): a payload of the launcher shape — "wj", then a
non-empty whitespace run, then non-empty free text containing no line
terminator — yields the free text with surrounding whitespace trimmed as
the query; a payload the pattern rejects is used verbatim. -/
theorem routeQuery_behavior (payload w r : Str) :
    (w ≠ [] → w.all (fun c => c.isWhitespace) = true →
      r ≠ [] → (∀ c ∈ r.take 1, c.isWhitespace = false) →
      r.all (fun c => !isLineTerm c) = true →
      routeQuery (['w', 'j'] ++ w ++ r) = trimStr r) ∧
    (matchWj payload = none → routeQuery payload = payload) := by
  constructor
  · intro hw hws hr hhead hlt
    have hm : matchWj (['w', 'j'] ++ w ++ r) = some r := by
      have hpre : startsWith (['w', 'j'] ++ w ++ r) ['w', 'j'] = true := by
        rw [startsWith_iff, List.append_assoc]
        exact List.prefix_append _ _
      have h2 : (['w', 'j'] ++ w ++ r).drop 2 = w ++ r := by simp
      have h3 : (w ++ r).takeWhile (fun c => c.isWhitespace) = w :=
        takeWhile_all_append w r hws hhead
      have hlen : ¬ (w.length = 0) := by
        simpa [List.length_eq_zero] using hw
      simp only [matchWj, hpre, if_true, h2, h3, List.drop_left]
      rw [if_neg hlen, if_pos hr, if_pos hlt]
    have hne : (['w', 'j'] ++ w ++ r) ≠ [] := by simp
    simp only [routeQuery, if_neg hne, hm]
    rw [if_neg hr]
  · intro h
    by_cases hp : payload = []
    · simp [routeQuery, hp]
    · simp [routeQuery, hp, h]

theorem routeQuery_behavior_witness :
    routeQuery (['w', 'j'] ++ [' '] ++ ['a', 'b', ' ']) = trimStr ['a', 'b', ' '] :=
  (routeQuery_behavior [] [' '] ['a', 'b', ' ']).1 (by decide) (by decide)
    (by decide) (by decide) (by decide)

end ListFilter
